import Mathlib

/-!
Verification of the concurrency/runtime-context core of
`src/include/caffe/common.hpp` (caffe).

Shallow embedding conventions:
* each mutex-protected method body is one atomic state transition, modelled
  as a pure function on the protected state;
* a condition-variable wait `cv_.wait(lock, pred)` is modelled by its wake
  predicate `pred` (the call can return exactly in states where the
  predicate holds) together with the state transition performed after the
  wake;
* the lock-free CAS loops `atomic_maximum` / `atomic_minimum` linearize at
  their successful compare-exchange (or at the final load when no exchange
  happens), so one invocation is the atomic transition written below, and a
  concurrent history of invocations is a sequence of these transitions in
  some interleaving order (a permutation of the per-thread proposals);
* `std::map<K,V>` contents are an association list sorted by strictly
  increasing key (`sorted_map` below); `begin()` is the head of that list;
* `size_t` values are natural numbers below `2^64`; `(size_t)-1` is
  `2 ^ 64 - 1`.
-/

namespace Caffe

/-! ### AtomicExtremum (common.hpp lines 48-60)

`atomic_maximum(max_val, new_val)`: loads `prev_val`; while
`prev_val < new_val` and the CAS fails, retries (a failed CAS reloads the
current value into `prev_val`). The loop exits either because
`prev_val < new_val` fails (no store) or because the CAS succeeds, storing
`new_val` in a state whose current value was `prev_val < new_val`. The
linearized effect of one invocation on the shared cell is therefore: -/

def atomic_maximum {V : Type} [LinearOrder V] (max_val new_val : V) : V :=
  if max_val < new_val then new_val else max_val

/-- Dual of `atomic_maximum`: store `new_val` iff it is below the current
value (common.hpp lines 55-60). -/
def atomic_minimum {V : Type} [LinearOrder V] (min_val new_val : V) : V :=
  if min_val > new_val then new_val else min_val

/-! ### Epoch counter (common.hpp lines 178-187, 316) -/

/-- The `size_t` value `(size_t)-1L` that common.hpp line 183 compares the
epoch counter against. -/
def size_t_sentinel : Nat := 2 ^ 64 - 1

/-- Modelled from the spec: the out-of-line definition of the static member
`std::atomic<size_t> epoch_count_` (declared at common.hpp line 316) is in
common.cpp, outside src/. The spec says `current_epoch()` "returns 0 if no
report has ever occurred (sentinel \"unset\" maps to zero)", and the getter
at line 183 compares against `(size_t)-1L`, so the counter starts at that
unset sentinel. -/
def epoch_count_init : Nat := size_t_sentinel

/-- Method `Caffe::report_epoch_count` (common.hpp lines 178-180): applies
`atomic_minimum` to the shared counter. -/
def report_epoch_count (epoch_count_ rec' : Nat) : Nat :=
  atomic_minimum epoch_count_ rec'

/-- Getter `Caffe::epoch_count` (common.hpp lines 181-187): loads the counter and
maps the unset sentinel to `0`. -/
def epoch_count (epoch_count_ : Nat) : Nat :=
  if epoch_count_ = size_t_sentinel then 0 else epoch_count_

/-! ### Mode switch (common.hpp lines 127, 198-210) -/

inductive Brew
  | CPU
  | GPU
deriving DecidableEq

/-- The part of the `Caffe` singleton state that `set_mode` touches:
the current mode, plus an instrumentation counter of `init()` calls
(the spec's "reinitialization counter"). -/
structure CaffeState where
  mode_ : Brew
  init_calls : Nat
deriving DecidableEq

/-- Setter `Caffe::set_mode` (common.hpp lines 198-210): returns immediately when
`mode_ == mode`; otherwise stores the new mode under the mutex and then
calls `Get().init()` once. -/
def set_mode (st : CaffeState) (mode : Brew) : CaffeState :=
  if st.mode_ = mode then st
  else { mode_ := mode, init_calls := st.init_calls + 1 }

/-! ### Device set (common.hpp lines 254-260) -/

/-- Setter `Caffe::set_gpus` (common.hpp lines 254-260): under the mutex, assigns
`gpus_ = gpus` and, if the result is empty, pushes back `root_device_`.
Returns the new value of `gpus_`. -/
def set_gpus (root_device_ : Int) (gpus : List Int) : List Int :=
  if gpus = [] then [root_device_] else gpus

/-! ### Flag (common.hpp lines 390-445)

State: the two booleans guarded by `m_`. Each method body is one atomic
transition; the two blocking methods are modelled by their condition
variable wake predicates plus the transition performed after the wake. -/

structure Flag where
  flag_ : Bool
  disarmed_ : Bool
deriving DecidableEq

namespace Flag

/-- Constructor `Flag(bool state = false)` (lines 398-399). -/
def init (state : Bool) : Flag :=
  { flag_ := state, disarmed_ := false }

/-- Method `Flag::is_set` (lines 401-404). -/
def is_set (f : Flag) : Bool :=
  f.flag_

/-- Method `Flag::set` (lines 406-412). -/
def set (f : Flag) : Flag :=
  { f with flag_ := true }

/-- Method `Flag::reset` (lines 414-420). -/
def reset (f : Flag) : Flag :=
  { f with flag_ := false }

/-- Method `Flag::disarm` (lines 427-433). -/
def disarm (f : Flag) : Flag :=
  { f with disarmed_ := true }

/-- Wake predicate of `Flag::wait` (lines 422-425): the lambda
`[this] { return flag_; }` passed to `cv_.wait`. `wait` can return exactly
in states where this is true, and performs no state change. -/
def wait_wake (f : Flag) : Bool :=
  f.flag_

/-- Wake predicate of `Flag::wait_reset` (line 438): the lambda
`[this] { return flag_ || disarmed_; }`. -/
def wait_reset_wake (f : Flag) : Bool :=
  f.flag_ || f.disarmed_

/-- State transition of `Flag::wait_reset` performed after its wake
(lines 439-441): `if (!disarmed_) flag_ = false;`. -/
def wait_reset (f : Flag) : Flag :=
  if !f.disarmed_ then { f with flag_ := false } else f

end Flag

/-! ### ThreadSafeMap (common.hpp lines 447-548)

`ThreadSafeMap<M>` guards an underlying map `M` with one mutex; every
operation below is one critical section, so it is modelled as a pure
function on the map contents. The instantiating map is the spec's
GuardedOrderedMap, i.e. `std::map<K,V>`-like: contents are an association
list sorted by strictly increasing key, `find` walks the entries,
`emplace` inserts at the ordered position when the key is absent (and does
nothing when it is present), `begin()` is the head. -/

/-- The `std::map` ordering invariant: keys strictly increase along the
entry list (so keys are pairwise distinct). -/
def sorted_map {K V : Type} [LT K] (m : List (K × V)) : Prop :=
  List.Pairwise (fun a b : K × V => a.1 < b.1) m

/-- Lookup `map_->find(key)` (used at common.hpp line 518), returning the mapped
value when the key is present. -/
def map_find {K V : Type} [DecidableEq K] (m : List (K × V)) (key : K) : Option V :=
  match m with
  | [] => none
  | e :: rest => if e.1 = key then some e.2 else map_find rest key

/-- Insertion `map_->emplace(key, value)` (common.hpp line 520): inserts at the
ordered position when the key is absent; when the key is already present,
`std::map::emplace` leaves the map unchanged. -/
def map_emplace {K V : Type} [LinearOrder K] (m : List (K × V)) (key : K) (value : V) :
    List (K × V) :=
  match m with
  | [] => [(key, value)]
  | e :: rest =>
    if key < e.1 then (key, value) :: e :: rest
    else if e.1 < key then e :: map_emplace rest key value
    else e :: rest

/-- Assignment `it->second = value` (common.hpp line 522): overwrite the mapped value
at an existing key, keys untouched. -/
def map_set {K V : Type} [DecidableEq K] (m : List (K × V)) (key : K) (value : V) :
    List (K × V) :=
  match m with
  | [] => []
  | e :: rest => if e.1 = key then (key, value) :: rest else e :: map_set rest key value

/-- Method `ThreadSafeMap::insert_max` (common.hpp lines 516-524): find the key;
if absent, emplace `(key, value)`; if present, overwrite only when
`value > it->second`. -/
def insert_max {K V : Type} [LinearOrder K] [LinearOrder V]
    (m : List (K × V)) (key : K) (value : V) : List (K × V) :=
  match map_find m key with
  | none => map_emplace m key value
  | some stored => if value > stored then map_set m key value else m

/-- Method `ThreadSafeMap::remove_top` (common.hpp lines 525-535): takes the two
out-parameters by reference; if `begin() == end()` returns `false` leaving
everything untouched, else copies the first entry into the out-parameters,
erases it, and returns `true`. Result: (return value, new map contents,
`key` out-parameter, `value` out-parameter). -/
def remove_top {K V : Type} (m : List (K × V)) (key : K) (value : V) :
    Bool × List (K × V) × K × V :=
  match m with
  | [] => (false, m, key, value)
  | e :: rest => (true, rest, e.1, e.2)

/-- Calling `remove_top` repeatedly until it reports empty (the loop can
run at most `length` times), collecting the keys it returns. -/
def drain_loop {K V : Type} (k0 : K) (v0 : V) : Nat → List (K × V) → List K
  | 0, _ => []
  | fuel + 1, m =>
    let r := remove_top m k0 v0
    if r.1 then r.2.2.1 :: drain_loop k0 v0 fuel r.2.1 else []

/-- The key sequence produced by draining a map through `remove_top`. -/
def drain_keys {K V : Type} (k0 : K) (v0 : V) (m : List (K × V)) : List K :=
  drain_loop k0 v0 m.length m

/-- A whole history of `insert_max` calls, applied in order to the freshly
constructed (empty) map of the `ThreadSafeMap` constructor
(common.hpp lines 450-453). -/
def apply_inserts {K V : Type} [LinearOrder K] [LinearOrder V]
    (ops : List (K × V)) : List (K × V) :=
  ops.foldl (fun acc p => insert_max acc p.1 p.2) []

/-- The values offered for one key over a history of `insert_max` calls,
in call order. -/
def values_for {K V : Type} [DecidableEq K] (key : K) (ops : List (K × V)) : List V :=
  (ops.filter (fun p => p.1 = key)).map Prod.snd

/-- Combine an optional stored value with a freshly offered one the way
`insert_max` does: a first offer is stored, a later offer replaces the
stored value exactly when strictly greater, so the result is their max. -/
def optmax {V : Type} [LinearOrder V] (o : Option V) (v : V) : V :=
  match o with
  | none => v
  | some w => max w v

/-! ### Shared lemmas about the CAS extremum fold -/

theorem amax_eq_max {V : Type} [LinearOrder V] (s c : V) :
    atomic_maximum s c = max s c := by
  unfold atomic_maximum
  rcases lt_or_ge s c with h | h
  · rw [if_pos h, max_eq_right h.le]
  · rw [if_neg (not_lt.mpr h), max_eq_left h]

theorem amin_eq_min {V : Type} [LinearOrder V] (s c : V) :
    atomic_minimum s c = min s c := by
  unfold atomic_minimum
  rcases lt_or_ge c s with h | h
  · rw [if_pos h, min_eq_right h.le]
  · rw [if_neg (not_lt.mpr h), min_eq_left h]

theorem foldl_amax_init_le {V : Type} [LinearOrder V] (l : List V) (s : V) :
    s ≤ l.foldl atomic_maximum s := by
  induction l generalizing s with
  | nil => exact le_refl s
  | cons c t ih =>
    calc s ≤ atomic_maximum s c := by rw [amax_eq_max]; exact le_max_left s c
    _ ≤ t.foldl atomic_maximum (atomic_maximum s c) := ih _
    _ = (c :: t).foldl atomic_maximum s := rfl

theorem foldl_amax_mem_le {V : Type} [LinearOrder V] (l : List V) (s : V) :
    ∀ x ∈ l, x ≤ l.foldl atomic_maximum s := by
  induction l generalizing s with
  | nil => intro x hx; cases hx
  | cons c t ih =>
    intro x hx
    rcases List.mem_cons.mp hx with rfl | hx
    · calc x ≤ atomic_maximum s x := by rw [amax_eq_max]; exact le_max_right s x
      _ ≤ t.foldl atomic_maximum (atomic_maximum s x) := foldl_amax_init_le t _
    · exact ih (atomic_maximum s c) x hx

theorem foldl_amax_eq_or_mem {V : Type} [LinearOrder V] (l : List V) (s : V) :
    l.foldl atomic_maximum s = s ∨ l.foldl atomic_maximum s ∈ l := by
  induction l generalizing s with
  | nil => exact Or.inl rfl
  | cons c t ih =>
    have step : (c :: t).foldl atomic_maximum s = t.foldl atomic_maximum (atomic_maximum s c) := rfl
    rcases ih (atomic_maximum s c) with h | h
    · rw [step, h, amax_eq_max]
      rcases max_choice s c with hm | hm
      · exact Or.inl hm
      · exact Or.inr (by rw [hm]; exact List.mem_cons_self c t)
    · exact Or.inr (by rw [step]; exact List.mem_cons_of_mem c h)

theorem foldl_amax_perm {V : Type} [LinearOrder V] {l l' : List V}
    (p : l.Perm l') (s : V) :
    l.foldl atomic_maximum s = l'.foldl atomic_maximum s := by
  induction p generalizing s with
  | nil => rfl
  | cons c _ ih => exact ih (atomic_maximum s c)
  | swap a b t =>
    show t.foldl atomic_maximum (atomic_maximum (atomic_maximum s b) a)
        = t.foldl atomic_maximum (atomic_maximum (atomic_maximum s a) b)
    rw [amax_eq_max, amax_eq_max, amax_eq_max, amax_eq_max, Max.right_comm]
  | trans _ _ ih1 ih2 => exact (ih1 s).trans (ih2 s)

theorem foldl_amin_le_init {V : Type} [LinearOrder V] (l : List V) (s : V) :
    l.foldl atomic_minimum s ≤ s := by
  induction l generalizing s with
  | nil => exact le_refl s
  | cons c t ih =>
    calc (c :: t).foldl atomic_minimum s = t.foldl atomic_minimum (atomic_minimum s c) := rfl
    _ ≤ atomic_minimum s c := ih _
    _ ≤ s := by rw [amin_eq_min]; exact min_le_left s c

theorem foldl_amin_le_mem {V : Type} [LinearOrder V] (l : List V) (s : V) :
    ∀ x ∈ l, l.foldl atomic_minimum s ≤ x := by
  induction l generalizing s with
  | nil => intro x hx; cases hx
  | cons c t ih =>
    intro x hx
    rcases List.mem_cons.mp hx with rfl | hx
    · calc (x :: t).foldl atomic_minimum s = t.foldl atomic_minimum (atomic_minimum s x) := rfl
      _ ≤ atomic_minimum s x := foldl_amin_le_init t _
      _ ≤ x := by rw [amin_eq_min]; exact min_le_right s x
    · exact ih (atomic_minimum s c) x hx

theorem foldl_amin_eq_or_mem {V : Type} [LinearOrder V] (l : List V) (s : V) :
    l.foldl atomic_minimum s = s ∨ l.foldl atomic_minimum s ∈ l := by
  induction l generalizing s with
  | nil => exact Or.inl rfl
  | cons c t ih =>
    have step : (c :: t).foldl atomic_minimum s = t.foldl atomic_minimum (atomic_minimum s c) := rfl
    rcases ih (atomic_minimum s c) with h | h
    · rw [step, h, amin_eq_min]
      rcases min_choice s c with hm | hm
      · exact Or.inl hm
      · exact Or.inr (by rw [hm]; exact List.mem_cons_self c t)
    · exact Or.inr (by rw [step]; exact List.mem_cons_of_mem c h)

theorem foldl_amin_perm {V : Type} [LinearOrder V] {l l' : List V}
    (p : l.Perm l') (s : V) :
    l.foldl atomic_minimum s = l'.foldl atomic_minimum s := by
  induction p generalizing s with
  | nil => rfl
  | cons c _ ih => exact ih (atomic_minimum s c)
  | swap a b t =>
    show t.foldl atomic_minimum (atomic_minimum (atomic_minimum s b) a)
        = t.foldl atomic_minimum (atomic_minimum (atomic_minimum s a) b)
    rw [amin_eq_min, amin_eq_min, amin_eq_min, amin_eq_min, min_right_comm]
  | trans _ _ ih1 ih2 => exact (ih1 s).trans (ih2 s)

/-! ### Shared lemmas about the ordered map -/

theorem drain_keys_eq_keys {K V : Type} (k0 : K) (v0 : V) (m : List (K × V)) :
    drain_keys k0 v0 m = m.map Prod.fst := by
  induction m with
  | nil => rfl
  | cons e rest ih =>
    show drain_loop k0 v0 (rest.length + 1) (e :: rest) = e.1 :: rest.map Prod.fst
    rw [← ih]
    rfl

theorem map_emplace_mem {K V : Type} [LinearOrder K] {m : List (K × V)}
    {key : K} {value : V} :
    ∀ p ∈ map_emplace m key value, p = (key, value) ∨ p ∈ m := by
  induction m with
  | nil =>
    intro p hp
    exact Or.inl (List.mem_singleton.mp hp)
  | cons e rest ih =>
    intro p hp
    unfold map_emplace at hp
    rcases lt_trichotomy key e.1 with h | h | h
    · rw [if_pos h] at hp
      rcases List.mem_cons.mp hp with rfl | hp
      · exact Or.inl rfl
      · exact Or.inr hp
    · rw [if_neg (by rw [h]; exact lt_irrefl e.1), if_neg (by rw [h]; exact lt_irrefl e.1)] at hp
      exact Or.inr hp
    · rw [if_neg (not_lt.mpr h.le), if_pos h] at hp
      rcases List.mem_cons.mp hp with rfl | hp
      · exact Or.inr (List.mem_cons_self _ _)
      · rcases ih p hp with h2 | h2
        · exact Or.inl h2
        · exact Or.inr (List.mem_cons_of_mem _ h2)

theorem map_emplace_sorted {K V : Type} [LinearOrder K] {m : List (K × V)}
    (hm : sorted_map m) (key : K) (value : V) :
    sorted_map (map_emplace m key value) := by
  induction m with
  | nil => exact List.pairwise_singleton _ _
  | cons e rest ih =>
    have he : ∀ p ∈ rest, e.1 < p.1 := (List.pairwise_cons.mp hm).1
    have hrest : sorted_map rest := (List.pairwise_cons.mp hm).2
    unfold map_emplace
    rcases lt_trichotomy key e.1 with h | h | h
    · rw [if_pos h]
      exact List.pairwise_cons.mpr
        ⟨by
          intro p hp
          rcases List.mem_cons.mp hp with rfl | hp
          · exact h
          · exact h.trans (he p hp), hm⟩
    · rw [if_neg (by rw [h]; exact lt_irrefl e.1), if_neg (by rw [h]; exact lt_irrefl e.1)]
      exact hm
    · rw [if_neg (not_lt.mpr h.le), if_pos h]
      exact List.pairwise_cons.mpr
        ⟨by
          intro p hp
          rcases map_emplace_mem p hp with rfl | hp
          · exact h
          · exact he p hp, ih hrest⟩

theorem map_find_emplace_self {K V : Type} [LinearOrder K] {m : List (K × V)}
    {key : K} (value : V) (habs : map_find m key = none) :
    map_find (map_emplace m key value) key = some value := by
  induction m with
  | nil => simp [map_emplace, map_find]
  | cons e rest ih =>
    have hne : e.1 ≠ key := by
      intro h
      rw [map_find, if_pos h] at habs
      cases habs
    have hrest : map_find rest key = none := by
      rw [map_find, if_neg hne] at habs
      exact habs
    unfold map_emplace
    rcases lt_trichotomy key e.1 with h | h | h
    · rw [if_pos h, map_find, if_pos rfl]
    · exact absurd h.symm hne
    · rw [if_neg (not_lt.mpr h.le), if_pos h, map_find, if_neg hne]
      exact ih hrest

theorem map_find_emplace_other {K V : Type} [LinearOrder K] {m : List (K × V)}
    {key k2 : K} (value : V) (hne : k2 ≠ key) :
    map_find (map_emplace m key value) k2 = map_find m k2 := by
  induction m with
  | nil =>
    show map_find [(key, value)] k2 = map_find [] k2
    rw [map_find, map_find, if_neg (fun h2 => hne (h2 : key = k2).symm)]
    rfl
  | cons e rest ih =>
    unfold map_emplace
    rcases lt_trichotomy key e.1 with h | h | h
    · rw [if_pos h, map_find, if_neg (fun h2 => hne h2.symm)]
    · rw [if_neg (by rw [h]; exact lt_irrefl e.1), if_neg (by rw [h]; exact lt_irrefl e.1)]
    · rw [if_neg (not_lt.mpr h.le), if_pos h]
      rw [map_find, map_find, ih]

theorem map_find_set_self {K V : Type} [DecidableEq K] {m : List (K × V)}
    {key : K} {stored : V} (value : V) (hf : map_find m key = some stored) :
    map_find (map_set m key value) key = some value := by
  induction m with
  | nil => cases hf
  | cons e rest ih =>
    unfold map_set
    by_cases h : e.1 = key
    · rw [if_pos h, map_find, if_pos rfl]
    · rw [if_neg h, map_find, if_neg h]
      rw [map_find, if_neg h] at hf
      exact ih hf

theorem map_find_set_other {K V : Type} [DecidableEq K] {m : List (K × V)}
    {key k2 : K} (value : V) (hne : k2 ≠ key) :
    map_find (map_set m key value) k2 = map_find m k2 := by
  induction m with
  | nil => rfl
  | cons e rest ih =>
    unfold map_set
    by_cases h : e.1 = key
    · rw [if_pos h, map_find, if_neg (fun h2 => hne h2.symm), map_find,
        if_neg (fun h2 => hne (h ▸ h2).symm)]
    · rw [if_neg h, map_find, map_find, ih]

theorem map_set_keys {K V : Type} [DecidableEq K] (m : List (K × V))
    (key : K) (value : V) :
    (map_set m key value).map Prod.fst = m.map Prod.fst := by
  induction m with
  | nil => rfl
  | cons e rest ih =>
    unfold map_set
    by_cases h : e.1 = key
    · rw [if_pos h]
      show key :: rest.map Prod.fst = e.1 :: rest.map Prod.fst
      rw [h]
    · rw [if_neg h]
      show e.1 :: (map_set rest key value).map Prod.fst = e.1 :: rest.map Prod.fst
      rw [ih]

theorem map_set_sorted {K V : Type} [LinearOrder K] {m : List (K × V)}
    (hm : sorted_map m) (key : K) (value : V) :
    sorted_map (map_set m key value) := by
  have h1 : List.Pairwise (· < ·) ((map_set m key value).map Prod.fst) := by
    rw [map_set_keys]
    exact (List.pairwise_map).mpr hm
  exact (List.pairwise_map).mp h1

theorem insert_max_sorted {K V : Type} [LinearOrder K] [LinearOrder V]
    {m : List (K × V)} (hm : sorted_map m) (key : K) (value : V) :
    sorted_map (insert_max m key value) := by
  cases h : map_find m key with
  | none =>
    simp only [insert_max, h]
    exact map_emplace_sorted hm key value
  | some stored =>
    simp only [insert_max, h]
    by_cases hv : value > stored
    · rw [if_pos hv]
      exact map_set_sorted hm key value
    · rw [if_neg hv]
      exact hm

theorem map_find_insert_max_self {K V : Type} [LinearOrder K] [LinearOrder V]
    (m : List (K × V)) (key : K) (value : V) :
    map_find (insert_max m key value) key = some (optmax (map_find m key) value) := by
  cases h : map_find m key with
  | none =>
    simp only [insert_max, h, optmax]
    exact map_find_emplace_self value h
  | some stored =>
    simp only [insert_max, h, optmax]
    by_cases hv : value > stored
    · rw [if_pos hv, map_find_set_self value h, max_eq_right hv.le]
    · rw [if_neg hv, h, max_eq_left (le_of_not_lt hv)]

theorem map_find_insert_max_other {K V : Type} [LinearOrder K] [LinearOrder V]
    (m : List (K × V)) {key k2 : K} (value : V) (hne : k2 ≠ key) :
    map_find (insert_max m key value) k2 = map_find m k2 := by
  cases h : map_find m key with
  | none =>
    simp only [insert_max, h]
    exact map_find_emplace_other value hne
  | some stored =>
    simp only [insert_max, h]
    by_cases hv : value > stored
    · rw [if_pos hv]
      exact map_find_set_other value hne
    · rw [if_neg hv]

theorem values_for_cons {K V : Type} [DecidableEq K] (k : K) (p : K × V)
    (t : List (K × V)) :
    values_for k (p :: t)
      = if p.1 = k then p.2 :: values_for k t else values_for k t := by
  by_cases h : p.1 = k
  · rw [if_pos h]
    unfold values_for
    rw [List.filter_cons_of_pos (by simp [h])]
    rfl
  · rw [if_neg h]
    unfold values_for
    rw [List.filter_cons_of_neg (by simp [h])]

theorem map_find_fold_insert {K V : Type} [LinearOrder K] [LinearOrder V]
    (ops : List (K × V)) (m : List (K × V)) (k : K) :
    map_find (ops.foldl (fun acc p => insert_max acc p.1 p.2) m) k
      = (values_for k ops).foldl (fun o v => some (optmax o v)) (map_find m k) := by
  induction ops generalizing m with
  | nil => rfl
  | cons p t ih =>
    show map_find (t.foldl (fun acc q => insert_max acc q.1 q.2) (insert_max m p.1 p.2)) k = _
    rw [ih (insert_max m p.1 p.2), values_for_cons]
    by_cases hk : p.1 = k
    · rw [if_pos hk]
      show _ = (values_for k t).foldl (fun o v => some (optmax o v)) (some (optmax (map_find m k) p.2))
      rw [← hk, map_find_insert_max_self]
    · rw [if_neg hk, map_find_insert_max_other m p.2 (fun h2 => hk h2.symm)]

theorem foldl_optmax_some {V : Type} [LinearOrder V] (t : List V) (u : V) :
    t.foldl (fun o v => some (optmax o v)) (some u) = some (t.foldl max u) := by
  induction t generalizing u with
  | nil => rfl
  | cons v t2 ih =>
    show t2.foldl (fun o w => some (optmax o w)) (some (max u v)) = _
    rw [ih (max u v)]
    rfl

theorem foldl_max_eq_amax {V : Type} [LinearOrder V] (t : List V) (u : V) :
    t.foldl max u = t.foldl atomic_maximum u := by
  induction t generalizing u with
  | nil => rfl
  | cons v t2 ih =>
    show t2.foldl max (max u v) = t2.foldl atomic_maximum (atomic_maximum u v)
    rw [amax_eq_max, ih]

theorem find_apply_inserts {K V : Type} [LinearOrder K] [LinearOrder V]
    (ops : List (K × V)) (k : K) :
    map_find (apply_inserts ops) k
      = match values_for k ops with
        | [] => none
        | v :: t => some (t.foldl max v) := by
  have h := map_find_fold_insert ops [] k
  cases hv : values_for k ops with
  | nil =>
    rw [apply_inserts, h, hv]
    rfl
  | cons v t =>
    rw [apply_inserts, h, hv]
    show t.foldl (fun o w => some (optmax o w)) (some (optmax none v)) = some (t.foldl max v)
    exact foldl_optmax_some t v

theorem foldl_max_is_max {V : Type} [LinearOrder V] (t : List V) (v : V) :
    v ≤ t.foldl max v ∧ (∀ y ∈ t, y ≤ t.foldl max v) ∧
    (t.foldl max v = v ∨ t.foldl max v ∈ t) := by
  rw [foldl_max_eq_amax]
  exact ⟨foldl_amax_init_le t v, foldl_amax_mem_le t v, foldl_amax_eq_or_mem t v⟩

/-! ### Claim theorems -/

/-- C1: on every reachable (key-sorted) state of the guarded ordered map,
`remove_top` succeeds exactly on non-empty maps, and then removes and
returns the entry whose key is the globally smallest key present at the
time of the call (the remaining map keeps the ordering invariant);
consequently calling `remove_top` repeatedly until the map is empty yields
keys in non-decreasing order. -/
theorem remove_top_removes_minimum {K V : Type} [LinearOrder K]
    (m : List (K × V)) (k0 : K) (v0 : V) (hm : sorted_map m) :
    (∀ e rest, m = e :: rest →
      remove_top m k0 v0 = (true, rest, e.1, e.2) ∧
      e ∈ m ∧ (∀ p ∈ m, e.1 ≤ p.1) ∧ sorted_map rest) ∧
    List.Pairwise (fun a b : K => a ≤ b) (drain_keys k0 v0 m) := by
  constructor
  · rintro e rest rfl
    refine ⟨rfl, List.mem_cons_self _ _, ?_, (List.pairwise_cons.mp hm).2⟩
    intro p hp
    rcases List.mem_cons.mp hp with rfl | hp
    · exact le_refl _
    · exact ((List.pairwise_cons.mp hm).1 p hp).le
  · rw [drain_keys_eq_keys]
    exact ((List.pairwise_map).mpr hm).imp le_of_lt

theorem remove_top_removes_minimum_witness :
    sorted_map [((1 : Nat), (10 : Nat)), (2, 20)] ∧
    remove_top [((1 : Nat), (10 : Nat)), (2, 20)] 0 0 = (true, [(2, 20)], 1, 10) := by
  have h := remove_top_removes_minimum [((1 : Nat), (10 : Nat)), (2, 20)] 0 0
    (by unfold sorted_map; decide)
  exact ⟨by unfold sorted_map; decide, (h.1 (1, 10) [(2, 20)] rfl).1⟩

/-- C2 counterexample: the claim says that after `disarm()` the wake
predicate of each blocking call is satisfied. For `wait()` it is not: on
the armed, clear flag `Flag(false)`, `disarm()` leaves `flag_` false, and
`wait()`'s wake predicate (the lambda returning `flag_`) still evaluates
to false, so a thread blocked in `wait()` stays blocked. -/
theorem wait_not_released_by_disarm :
    Flag.wait_wake (Flag.disarm (Flag.init false)) = false := rfl

/-- C2 (amended): `disarm()` satisfies the wake predicate of
`wait_and_consume()` (`wait_reset`) in every state even if `set()` is never
called, so `wait_reset` can never block once `disarm()` has run, and a
second `disarm()` is a no-op; `wait()`'s wake predicate however checks only
`flag_`, so `disarm()` changes nothing about it — a thread blocked in
`wait()` is released only by `set()`. -/
theorem disarm_unblocks_wait_reset (f : Flag) :
    Flag.wait_reset_wake (Flag.disarm f) = true ∧
    Flag.disarm (Flag.disarm f) = Flag.disarm f ∧
    Flag.wait_wake (Flag.disarm f) = Flag.wait_wake f := by
  refine ⟨?_, rfl, rfl⟩
  simp [Flag.wait_reset_wake, Flag.disarm]

/-- C3 counterexample: the claim says that whenever `wait_reset` wakes with
the flag state set it transitions set to clear. On the woken state
(set, disarmed) the body `if (!disarmed_) flag_ = false;` does nothing, so
the flag stays set. -/
theorem wait_reset_disarmed_keeps_set_flag :
    ¬ ((Flag.wait_reset (Flag.mk true true)).flag_ = false) := by decide

/-- C3 (amended): in every state in which `wait_reset` wakes up: if the
flag is armed, the state is necessarily set and the call transitions
set to clear before returning ("fired"); if the flag is disarmed, the call
returns without altering the state — whether the state is clear
("disarmed") or still set. -/
theorem wait_reset_fires_or_disarmed (f : Flag)
    (hw : Flag.wait_reset_wake f = true) :
    (f.disarmed_ = false →
      f.flag_ = true ∧ Flag.wait_reset f = Flag.mk false f.disarmed_) ∧
    (f.disarmed_ = true → Flag.wait_reset f = f) := by
  constructor
  · intro hd
    have hf : f.flag_ = true := by
      simpa [Flag.wait_reset_wake, hd] using hw
    constructor
    · exact hf
    · simp [Flag.wait_reset, hd]
  · intro hd
    simp [Flag.wait_reset, hd]

theorem wait_reset_fires_or_disarmed_witness :
    Flag.wait_reset_wake (Flag.mk true false) = true ∧
    Flag.wait_reset (Flag.mk true false) = Flag.mk false false := by
  have h := wait_reset_fires_or_disarmed (Flag.mk true false) (by decide)
  exact ⟨by decide, (h.1 rfl).2⟩

/-- C4: `insert_max` keeps the map invariant; on an absent key it inserts
the offered pair, on a present key it stores exactly the max of stored and
offered value and leaves the map untouched unless the offered value is
strictly greater; hence after any history of `insert_max` calls on the
initially empty guarded map, the value stored under each key is exactly
the maximum of all values ever offered for that key (and a key with no
offers is absent). -/
theorem insert_max_accumulates_max {K V : Type} [LinearOrder K] [LinearOrder V]
    (m : List (K × V)) (key : K) (value : V) (ops : List (K × V)) (k : K)
    (hm : sorted_map m) :
    sorted_map (insert_max m key value) ∧
    (map_find m key = none → map_find (insert_max m key value) key = some value) ∧
    (∀ w, map_find m key = some w →
      map_find (insert_max m key value) key = some (max w value)) ∧
    (∀ w, map_find m key = some w → ¬ w < value → insert_max m key value = m) ∧
    (map_find (apply_inserts ops) k = none ↔ values_for k ops = []) ∧
    (∀ x, map_find (apply_inserts ops) k = some x ↔
      x ∈ values_for k ops ∧ ∀ y ∈ values_for k ops, y ≤ x) := by
  refine ⟨insert_max_sorted hm key value, ?_, ?_, ?_, ?_, ?_⟩
  · intro h
    rw [map_find_insert_max_self, h]
    rfl
  · intro w h
    rw [map_find_insert_max_self, h]
    rfl
  · intro w h hnlt
    simp only [insert_max, h, gt_iff_lt, if_neg hnlt]
  · rw [find_apply_inserts]
    cases hv : values_for k ops with
    | nil => simp
    | cons v t => simp
  · intro x
    rw [find_apply_inserts]
    cases hv : values_for k ops with
    | nil => simp
    | cons v t =>
      obtain ⟨h1, h2, h3⟩ := foldl_max_is_max t v
      constructor
      · intro hx
        have hx2 : t.foldl max v = x := by
          simpa using hx
        subst hx2
        refine ⟨?_, ?_⟩
        · rcases h3 with h | h
          · rw [h]; exact List.mem_cons_self v t
          · exact List.mem_cons_of_mem v h
        · intro y hy
          rcases List.mem_cons.mp hy with rfl | hy
          · exact h1
          · exact h2 y hy
      · rintro ⟨hmem, hub⟩
        have hle : t.foldl max v ≤ x := by
          rcases h3 with h | h
          · rw [h]; exact hub v (List.mem_cons_self v t)
          · exact hub _ (List.mem_cons_of_mem v h)
        have hge : x ≤ t.foldl max v := by
          rcases List.mem_cons.mp hmem with rfl | hy
          · exact h1
          · exact h2 x hy
        show some (t.foldl max v) = some x
        rw [le_antisymm hle hge]

theorem insert_max_accumulates_max_witness :
    map_find (insert_max [((1 : Nat), (5 : Nat))] 1 9) 1 = some 9 ∧
    map_find (apply_inserts [((1 : Nat), (3 : Nat)), (2, 7), (1, 8)]) 1 = some 8 := by
  have h := insert_max_accumulates_max [((1 : Nat), (5 : Nat))] 1 9
    [((1 : Nat), (3 : Nat)), (2, 7), (1, 8)] 1 (by unfold sorted_map; decide)
  refine ⟨?_, ((h.2.2.2.2.2 8).mpr (by decide))⟩
  have h2 := h.2.2.1 5 (by decide)
  simpa using h2

/-- C5: one `atomic_maximum` (resp. `atomic_minimum`) invocation updates
the shared value to the candidate iff the candidate is strictly greater
(resp. smaller) than the current value and leaves it unchanged otherwise
(the result is exactly the max/min of the two); a history of one proposal
per participant, folded in any interleaving order, yields exactly the
extremum of the initial value and all proposals — the result dominates the
initial value and every applied candidate and is one of them — and is the
same for every interleaving (permutation) of the proposals. -/
theorem atomic_extremum_spec {V : Type} [LinearOrder V] (s c : V)
    (l l2 : List V) (hp : l.Perm l2) :
    (atomic_maximum s c ≠ s → s < c) ∧
    (s < c → atomic_maximum s c = c) ∧
    atomic_maximum s c = max s c ∧
    (atomic_minimum s c ≠ s → c < s) ∧
    (c < s → atomic_minimum s c = c) ∧
    atomic_minimum s c = min s c ∧
    s ≤ l.foldl atomic_maximum s ∧
    (∀ x ∈ l, x ≤ l.foldl atomic_maximum s) ∧
    (l.foldl atomic_maximum s = s ∨ l.foldl atomic_maximum s ∈ l) ∧
    l.foldl atomic_minimum s ≤ s ∧
    (∀ x ∈ l, l.foldl atomic_minimum s ≤ x) ∧
    (l.foldl atomic_minimum s = s ∨ l.foldl atomic_minimum s ∈ l) ∧
    l.foldl atomic_maximum s = l2.foldl atomic_maximum s ∧
    l.foldl atomic_minimum s = l2.foldl atomic_minimum s := by
  refine ⟨?_, ?_, amax_eq_max s c, ?_, ?_, amin_eq_min s c,
    foldl_amax_init_le l s, foldl_amax_mem_le l s, foldl_amax_eq_or_mem l s,
    foldl_amin_le_init l s, foldl_amin_le_mem l s, foldl_amin_eq_or_mem l s,
    foldl_amax_perm hp s, foldl_amin_perm hp s⟩
  · intro h
    by_contra hn
    exact h (by simp [atomic_maximum, hn])
  · intro h
    simp [atomic_maximum, h]
  · intro h
    by_contra hn
    exact h (by simp [atomic_minimum, hn])
  · intro h
    simp [atomic_minimum, h]

theorem atomic_extremum_spec_witness :
    atomic_maximum (3 : Nat) 7 = 7 ∧
    [3, 9, 4].foldl atomic_maximum (5 : Nat) = [9, 4, 3].foldl atomic_maximum (5 : Nat) := by
  obtain ⟨-, h2, -, -, -, -, -, -, -, -, -, -, h13, -⟩ :=
    atomic_extremum_spec (3 : Nat) 7 [3, 9, 4] [9, 4, 3] (by decide)
  exact ⟨h2 (by decide), h13⟩

/-- C6: `epoch_count` maps the unset sentinel `(size_t)-1` of the
never-reported counter to `0` and never returns the sentinel itself; after
at least one `report_epoch_count` with every reported value below the
sentinel, it returns exactly the minimum reported value. -/
theorem epoch_count_returns_min (reports : List Nat)
    (hlt : ∀ r ∈ reports, r < size_t_sentinel) :
    epoch_count epoch_count_init = 0 ∧
    (reports ≠ [] →
      epoch_count (reports.foldl report_epoch_count epoch_count_init) ∈ reports ∧
      ∀ r ∈ reports,
        epoch_count (reports.foldl report_epoch_count epoch_count_init) ≤ r) := by
  constructor
  · simp [epoch_count, epoch_count_init]
  · intro hne
    have hfold : reports.foldl report_epoch_count epoch_count_init
        = reports.foldl atomic_minimum epoch_count_init := rfl
    rcases foldl_amin_eq_or_mem reports epoch_count_init with h | h
    · obtain ⟨x, hx⟩ := List.exists_mem_of_ne_nil reports hne
      have hle := foldl_amin_le_mem reports epoch_count_init x hx
      rw [h] at hle
      exact absurd (lt_of_le_of_lt hle (hlt x hx)) (lt_irrefl _)
    · have hne2 : reports.foldl atomic_minimum epoch_count_init ≠ size_t_sentinel :=
        ne_of_lt (hlt _ h)
      have hcount : epoch_count (reports.foldl report_epoch_count epoch_count_init)
          = reports.foldl atomic_minimum epoch_count_init := by
        rw [hfold, epoch_count, if_neg hne2]
      rw [hcount]
      exact ⟨h, foldl_amin_le_mem reports epoch_count_init⟩

theorem epoch_count_returns_min_witness :
    epoch_count epoch_count_init = 0 ∧
    epoch_count ([5, 3, 7].foldl report_epoch_count epoch_count_init) ∈ [5, 3, 7] := by
  have h := epoch_count_returns_min [5, 3, 7] (by decide)
  exact ⟨h.1, (h.2 (by decide)).1⟩

/-- C7: `set_gpus` on the empty list leaves the active device set exactly
`[root_device_]`, on a non-empty list exactly that list, and in every case
the resulting device set is non-empty. -/
theorem set_gpus_nonempty (r : Int) (l : List Int) (hne : l ≠ []) :
    set_gpus r [] = [r] ∧ set_gpus r l = l ∧ ∀ l2 : List Int, set_gpus r l2 ≠ [] := by
  refine ⟨by rw [set_gpus, if_pos rfl], by rw [set_gpus, if_neg hne], ?_⟩
  intro l2
  rw [set_gpus]
  by_cases h : l2 = []
  · rw [if_pos h]
    simp
  · rw [if_neg h]
    exact h

theorem set_gpus_nonempty_witness :
    set_gpus 0 [] = [0] ∧ set_gpus 0 [1, 2] = [1, 2] := by
  have h := set_gpus_nonempty 0 [1, 2] (by decide)
  exact ⟨h.1, h.2.1⟩

/-- C8: `set_mode` with the current mode is a no-op — the state (mode and
reinitialization counter) is returned unchanged, so `init()` is not
triggered; `set_mode` with a different mode stores the new mode and bumps
the `init()` counter by exactly one. -/
theorem set_mode_spec (st : CaffeState) (m : Brew) (hne : st.mode_ ≠ m) :
    set_mode st st.mode_ = st ∧
    (set_mode st m).mode_ = m ∧
    (set_mode st m).init_calls = st.init_calls + 1 := by
  refine ⟨by rw [set_mode, if_pos rfl], ?_, ?_⟩
  · rw [set_mode, if_neg hne]
  · rw [set_mode, if_neg hne]

theorem set_mode_spec_witness :
    set_mode (CaffeState.mk Brew.CPU 0) Brew.CPU = CaffeState.mk Brew.CPU 0 ∧
    (set_mode (CaffeState.mk Brew.CPU 0) Brew.GPU).init_calls = 1 := by
  have h := set_mode_spec (CaffeState.mk Brew.CPU 0) Brew.GPU (by decide)
  exact ⟨h.1, h.2.2⟩

/-- C9: `remove_top` called on the empty guarded map reports "nothing
found" by returning `false` — for every pair of out-parameter values, i.e.
every time it is called on an empty map. -/
theorem remove_top_empty_reports_false {K V : Type} (k0 : K) (v0 : V) :
    (remove_top ([] : List (K × V)) k0 v0).1 = false := rfl

/-- C10: `remove_top` on the empty map returns `false` and leaves the map
and both caller-supplied out-parameters completely unchanged; on a
non-empty map the out-parameters are overwritten with the entry found,
independently of the values passed in — i.e. they are written only on the
success path, after an entry has been found. -/
theorem remove_top_empty_leaves_state {K V : Type} (k0 : K) (v0 : V)
    (e : K × V) (rest : List (K × V)) :
    remove_top ([] : List (K × V)) k0 v0 = (false, [], k0, v0) ∧
    remove_top (e :: rest) k0 v0 = (true, rest, e.1, e.2) :=
  ⟨rfl, rfl⟩

end Caffe
